import Mathlib

/-!
Shallow embedding of the replicated shopping-list core from
`src/server/src/lists.rs` and `src/server/src/id.rs`.

Conventions of the embedding:
* Rust `u32` counters are modelled as `Nat` (no claim involves wrap-around).
* `f32 order` is modelled as `Rat`; the order values arising in the claims
  are small integers and halves, where `f32` arithmetic is exact.
* `DateTime<Utc>` timestamps are modelled as `Nat` parameters threaded into
  every constructor that calls `Utc::now()`.
* Rust `panic` sites (`unreachable`, `todo`, index out of range, `expect`,
  integer underflow) are modelled explicitly: functions that can panic
  return `Option` (with `none` for a panic) or the `ROut` type below with a
  dedicated `panic` constructor.  `Err` results are distinct from panics.
* Methods taking `&mut self` that can fail after partially mutating return
  the post-state alongside the error (`ROut.err` carries the state).
* The Rust struct `List` is named `LList` here to avoid clashing with the
  Lean `List` type; all other names follow the source.
-/

namespace Things

/-- Error kind of `lists.rs` (`enum ListError`): the only variant is
`NotFound`. -/
inductive ListError where
  | notFound
  deriving DecidableEq, Repr

/-- Outcome of a Rust method on a mutable receiver: success with a value and
the new state, an error together with the (possibly mutated) state that the
caller keeps, or a panic. -/
inductive ROut (α : Type) (σ : Type) where
  | ok (val : α) (st : σ)
  | err (e : ListError) (st : σ)
  | panic
  deriving DecidableEq, Repr

/-- Identifier from `id.rs`: a pair of `u32`, `(agent, id)`. -/
structure Id where
  agent : Nat
  id : Nat
  deriving DecidableEq, Repr

/-- `ListItem` from `lists.rs`: id, title, done flag and fractional order. -/
structure ListItem where
  id : Id
  title : String
  done : Bool
  order : Rat
  deriving DecidableEq, Repr

/-- The partial-update record `UpdateListItem` from `lists.rs`. -/
structure UpdateListItem where
  title : Option String
  done : Option Bool
  order : Option Rat
  deriving DecidableEq, Repr

/-- `UpdateListItem::update`: start from a clone of the old item and replace
exactly the fields that are set; the id is never touched. -/
def UpdateListItem.update (u : UpdateListItem) (old_item : ListItem) : ListItem :=
  { old_item with
    title := u.title.getD old_item.title
    done := u.done.getD old_item.done
    order := u.order.getD old_item.order }

/-- `enum Operation` from `lists.rs`. -/
inductive Operation where
  | Root
  | Add (item : ListItem)
  | Remove (item : ListItem)
  | Edit (old_item new_item : ListItem)
  deriving DecidableEq, Repr

/-- `struct Change`: a timestamp plus an operation. -/
structure Change where
  timestamp : Nat
  operation : Operation
  deriving DecidableEq, Repr

/-- `Change::new` (the timestamp is the modelled `Utc::now()`). -/
def Change.new (ts : Nat) (operation : Operation) : Change :=
  ⟨ts, operation⟩

/-- `Change::root`. -/
def Change.root (ts : Nat) : Change :=
  Change.new ts Operation.Root

/-- The id remap accumulated by `transform` (`HashMap<Id, Id>` in the
source): an association list where an insert prepends, so the most recent
binding for a key wins, matching `HashMap::insert` overwrite semantics. -/
def idLookup (m : List (Id × Id)) (k : Id) : Option Id :=
  (m.find? (fun p => decide (p.1 = k))).map Prod.snd

/-- `Change::update_item_id`: rewrite the item ids of a `Remove` or `Edit`
according to the remap; `Add` and `Root` are left alone. -/
def Change.update_item_id (c : Change) (m : List (Id × Id)) : Change :=
  match c.operation with
  | .Remove item =>
    match idLookup m item.id with
    | some nid => { c with operation := .Remove { item with id := nid } }
    | none => c
  | .Edit from_item to_item =>
    match idLookup m from_item.id with
    | some nid =>
      { c with operation := .Edit { from_item with id := nid } { to_item with id := nid } }
    | none => c
  | _ => c

/-- `iter().position(..)` from the source, as an explicit recursion. -/
def listPosition {α : Type} (p : α → Bool) : List α → Option Nat
  | [] => none
  | x :: xs => if p x then some 0 else (listPosition p xs).map (· + 1)

/-- `struct ChangeLog`: records plus the `head` and `fork` cursors. -/
structure ChangeLog where
  head : Nat
  fork : Nat
  changes : List Change
  deriving DecidableEq, Repr

/-- `ChangeLog::new`: a single `Root` record, cursors at 0. -/
def ChangeLog.new (ts : Nat) : ChangeLog :=
  ⟨0, 0, [Change.root ts]⟩

/-- `ChangeLog::is_at_head`: `head == changes.len() - 1` (Nat subtraction;
the log is never empty in any state built by the API). -/
def ChangeLog.is_at_head (log : ChangeLog) : Bool :=
  log.head == log.changes.length - 1

/-- `ChangeLog::next`: advance `head` when it is not at the last record and
return the new current record. -/
def ChangeLog.next (log : ChangeLog) : Option (Change × ChangeLog) :=
  if log.head < log.changes.length - 1 then
    match log.changes[log.head + 1]? with
    | some c => some (c, { log with head := log.head + 1 })
    | none => none
  else none

/-- `ChangeLog::push`: panics (`none`) when not at head; otherwise appends a
fresh record and advances via `next` (whose `expect` cannot fire). -/
def ChangeLog.push (log : ChangeLog) (ts : Nat) (op : Operation) : Option (Change × ChangeLog) :=
  if log.is_at_head then
    ChangeLog.next { log with changes := log.changes ++ [Change.new ts op] }
  else none

/-- `ChangeLog::push_change`: append a copy of a foreign record and advance
via `next`; there is no at-head check in the source. -/
def ChangeLog.push_change (log : ChangeLog) (c : Change) : Option ChangeLog :=
  (ChangeLog.next { log with changes := log.changes ++ [c] }).map Prod.snd

/-- `ChangeLog::pop`: panics (`none`) when not at head or when `head` is 0
(`usize` underflow); otherwise drops the last record and retreats `head`. -/
def ChangeLog.pop (log : ChangeLog) : Option ChangeLog :=
  if log.is_at_head then
    if log.head = 0 then none
    else some { log with head := log.head - 1, changes := log.changes.dropLast }
  else none

/-- `ChangeLog::previous`: `some (none, log)` when `head ≤ fork` (no more
undoable operations), otherwise yields the current record and retreats
`head`; the outer `none` is the impossible out-of-range index. -/
def ChangeLog.previous (log : ChangeLog) : Option (Option Change × ChangeLog) :=
  if log.head ≤ log.fork then some (none, log)
  else
    match log.changes[log.head]? with
    | some c => some (some c, { log with head := log.head - 1 })
    | none => none

/-- `ChangeLog::changes_since`: slice strictly after the first record equal
to `c`; `none` models the `unreachable` panic when `c` is absent. -/
def ChangeLog.changes_since (log : ChangeLog) (c : Change) : Option (List Change) :=
  match listPosition (fun x => decide (x = c)) log.changes with
  | some i => some (log.changes.drop (i + 1))
  | none => none

/-- `ChangeLog::to_commit`: the slice `changes[fork..=head]`. -/
def ChangeLog.to_commit (log : ChangeLog) : List Change :=
  (log.changes.take (log.head + 1)).drop log.fork

/-- `struct List` from `lists.rs` (renamed `LList`, see the header). -/
structure LList where
  agent_id : Nat
  max_item_id : Nat
  items : List ListItem
  changes : ChangeLog
  deriving DecidableEq, Repr

/-- `List::new`. -/
def LList.new (agent_id : Nat) (ts : Nat) : LList :=
  ⟨agent_id, 0, [], ChangeLog.new ts⟩

/-- `List::snapshot`: fresh agent id, `max_item_id` reset to 0, and clones
of the items and of the whole change log (fork and head included). -/
def LList.snapshot (l : LList) (agent_id : Nat) : LList :=
  ⟨agent_id, 0, l.items, l.changes⟩

/-- `List::apply`: apply one change to `items`.  `Add` appends; `Remove` and
`Edit` locate their target by id or fail with `NotFound` (no mutation);
applying `Root` is an `unreachable` panic. -/
def LList.apply (l : LList) (c : Change) : ROut Unit LList :=
  match c.operation with
  | .Add item => .ok () { l with items := l.items ++ [item] }
  | .Remove item =>
    match listPosition (fun itm => decide (itm.id = item.id)) l.items with
    | some i => .ok () { l with items := l.items.eraseIdx i }
    | none => .err .notFound l
  | .Edit old_item new_item =>
    match listPosition (fun itm => decide (itm.id = old_item.id)) l.items with
    | some i => .ok () { l with items := l.items.set i new_item }
    | none => .err .notFound l
  | .Root => .panic

/-- `List::revert`: mirror of `apply`.  Reverting a `Remove` re-appends the
item at the tail (the source has a `TODO: sort?`); reverting an `Edit`
locates the target by the new item's id. -/
def LList.revert (l : LList) (c : Change) : ROut Unit LList :=
  match c.operation with
  | .Add item =>
    match listPosition (fun itm => decide (itm.id = item.id)) l.items with
    | some i => .ok () { l with items := l.items.eraseIdx i }
    | none => .err .notFound l
  | .Remove item => .ok () { l with items := l.items ++ [item] }
  | .Edit old_item new_item =>
    match listPosition (fun itm => decide (itm.id = new_item.id)) l.items with
    | some i => .ok () { l with items := l.items.set i old_item }
    | none => .err .notFound l
  | .Root => .panic

/-- `List::revert_current`: `previous()` retreats `head` first (even if the
revert then fails), missing record is `NotFound`. -/
def LList.revert_current (l : LList) : ROut Unit LList :=
  match l.changes.previous with
  | none => .panic
  | some (none, log') => .err .notFound { l with changes := log' }
  | some (some c, log') => LList.revert { l with changes := log' } c

/-- The rollback loop of `List::apply_all`: `revert_current` run `n` times,
each under an `expect` (so any failure is a panic, modelled `none`). -/
def LList.revert_n : LList → Nat → Option LList
  | l, 0 => some l
  | l, n + 1 =>
    match l.revert_current with
    | .ok _ l' => LList.revert_n l' n
    | _ => none

/-- Loop body of `List::apply_all`: each record is pushed onto the log
before being applied; on an apply failure at index `i` the loop reverts `i`
times and returns the error. -/
def LList.apply_all_go : LList → List Change → Nat → ROut Unit LList
  | l, [], _ => .ok () l
  | l, c :: rest, i =>
    match l.changes.push_change c with
    | none => .panic
    | some log' =>
      match LList.apply { l with changes := log' } c with
      | .ok _ l2 => LList.apply_all_go l2 rest (i + 1)
      | .err e l2 =>
        match l2.revert_n i with
        | some l3 => .err e l3
        | none => .panic
      | .panic => .panic

/-- `List::apply_all`: apply all changes or (per its doc comment) none. -/
def LList.apply_all (l : LList) (cs : List Change) : ROut Unit LList :=
  LList.apply_all_go l cs 0

/-- `List::push`: push the operation onto the log, apply it, and pop the log
record again if the apply fails. -/
def LList.push (l : LList) (ts : Nat) (op : Operation) : ROut Unit LList :=
  match l.changes.push ts op with
  | none => .panic
  | some (change, log') =>
    match LList.apply { l with changes := log' } change with
    | .ok _ l2 => .ok () l2
    | .err e l2 =>
      match l2.changes.pop with
      | some log2 => .err e { l2 with changes := log2 }
      | none => .panic
    | .panic => .panic

/-- `List::add`: coalesce on an existing equal title, otherwise mint the
next id, give the item order `max + 1`, and push an `Add`; the source
`expect`s that the push cannot fail. -/
def LList.add (l : LList) (title : String) (ts : Nat) : ROut ListItem LList :=
  match l.items.find? (fun item => decide (title = item.title)) with
  | some item => .ok item l
  | none =>
    let item : ListItem :=
      { id := ⟨l.agent_id, l.max_item_id + 1⟩
        title := title
        done := false
        order := (l.items.map (fun item => item.order)).foldl max 0 + 1 }
    match LList.push { l with max_item_id := l.max_item_id + 1 } ts (.Add item) with
    | .ok _ l2 => .ok item l2
    | _ => .panic

/-- `List::remove`: find the item by id and push a `Remove`. -/
def LList.remove (l : LList) (id : Id) (ts : Nat) : ROut ListItem LList :=
  match l.items.find? (fun itm => decide (itm.id = id)) with
  | none => .err .notFound l
  | some item =>
    match LList.push l ts (.Remove item) with
    | .ok _ l2 => .ok item l2
    | .err e l2 => .err e l2
    | .panic => .panic

/-- `List::update`: find the old item by id, build the new item from the
partial update, and push an `Edit`. -/
def LList.update (l : LList) (id : Id) (u : UpdateListItem) (ts : Nat) : ROut ListItem LList :=
  match l.items.find? (fun item => decide (item.id = id)) with
  | none => .err .notFound l
  | some old_item =>
    let new_item := u.update old_item
    match LList.push l ts (.Edit old_item new_item) with
    | .ok _ l2 => .ok new_item l2
    | .err e l2 => .err e l2
    | .panic => .panic

/-- Tail of `List::place_after`: write `(low + high) / 2` into the moved
item's order and re-sort `items` by order.  Rust's `sort_by` is a stable
sort, so it is modelled by a stable insertion sort on the same key, which
is extensionally identical. -/
def LList.place_after_finish (l : LList) (pos : Nat) (low high : Rat) : ROut Unit LList :=
  match l.items[pos]? with
  | some mi =>
    let items1 := l.items.set pos { mi with order := (low + high) / 2 }
    .ok () { l with items := items1.insertionSort (fun a b => a.order ≤ b.order) }
  | none => .panic

/-- `List::place_after`: choose the `(low, high)` order window.  The source
compares `position == items.len()` (never true for a found position) and in
the other branch reads `items[position + 1]`, which is out of range
(`panic`) when `after_id` names the last item. -/
def LList.place_after (l : LList) (move_id : Id) (after_id : Option Id) : ROut Unit LList :=
  match listPosition (fun item => decide (item.id = move_id)) l.items with
  | none => .err .notFound l
  | some move_item_position =>
    match after_id with
    | some aid =>
      match listPosition (fun itm => decide (itm.id = aid)) l.items with
      | none => .err .notFound l
      | some position =>
        if position = l.items.length then
          match l.items[position]? with
          | some it => LList.place_after_finish l move_item_position it.order (↑it.order.floor + 1)
          | none => .panic
        else
          match l.items[position]?, l.items[position + 1]? with
          | some a, some b => LList.place_after_finish l move_item_position a.order b.order
          | _, _ => .panic
    | none =>
      match l.items[0]?, l.items[move_item_position]? with
      | some first, some moveItem =>
        if first.id = moveItem.id then .ok () l
        else LList.place_after_finish l move_item_position 0 first.order
      | _, _ => .panic

/-- `List::changes_to_commit`. -/
def LList.changes_to_commit (l : LList) : List Change :=
  l.changes.to_commit

/-- `fn squash_one`: an `Add` absorbs a later `Edit` whose old item equals
the added item; the merged record keeps the `Add`'s timestamp. -/
def squash_one (out_change : Change) (change : Change) : Option Change :=
  match out_change.operation, change.operation with
  | .Add out_item, .Edit old_item new_item =>
    if out_item = old_item then some { out_change with operation := .Add new_item } else none
  | _, _ => none

/-- The `iter_mut().rev().any(..)` scan of `squash_changes`, acting on the
output list kept in reverse order (most recent first): merge `change` into
the first element that accepts it. -/
def tryMergeRev : List Change → Change → Option (List Change)
  | [], _ => none
  | o :: rest, c =>
    match squash_one o c with
    | some o' => some (o' :: rest)
    | none =>
      match tryMergeRev rest c with
      | some rest' => some (o :: rest')
      | none => none

/-- Loop of `fn squash_changes` with the output accumulated in reverse. -/
def squashRevAux : List Change → List Change → List Change
  | acc, [] => acc
  | acc, c :: cs =>
    match tryMergeRev acc c with
    | some acc' => squashRevAux acc' cs
    | none => squashRevAux (c :: acc) cs

/-- `fn squash_changes`. -/
def squash_changes (changes : List Change) : List Change :=
  (squashRevAux [] changes).reverse

/-- `enum TransformResult`. -/
inductive TransformResult where
  | Apply (c : Change)
  | Skip (c : Change)
  deriving DecidableEq, Repr

/-- The reverse scan of `fn transform_one` over the confirmed changes (the
argument list is already reversed).  `none` models the source's panics: the
`unreachable` arms and the three `todo` conflict arms. -/
def transform_one_go (incoming_change : Change) : List Change → Option TransformResult
  | [] => some (.Apply incoming_change)
  | confirmed_change :: rest =>
    match confirmed_change.operation, incoming_change.operation with
    | .Add confirmed_item, .Add incoming_item =>
      if confirmed_item.id = incoming_item.id then none
      else if confirmed_item.title = incoming_item.title then
        some (.Skip confirmed_change)
      else transform_one_go incoming_change rest
    | .Add confirmed_item, .Edit incoming_item _ =>
      if confirmed_item.id = incoming_item.id then
        if confirmed_item.title ≠ incoming_item.title then none
        else some (.Apply incoming_change)
      else transform_one_go incoming_change rest
    | .Edit confirmed_item confirmed_new_item, .Add incoming_item =>
      if confirmed_item.id = incoming_item.id then none
      else if incoming_item.title = confirmed_new_item.title then
        some (.Skip confirmed_change)
      else transform_one_go incoming_change rest
    | .Edit confirmed_item confirmed_new_item, .Edit incoming_item incoming_new_item =>
      if confirmed_item.id = incoming_item.id then
        if confirmed_item.title = incoming_item.title then
          if confirmed_new_item.title = incoming_new_item.title then
            some (.Apply incoming_change)
          else none
        else none
      else transform_one_go incoming_change rest
    | .Remove confirmed_item, .Remove incoming_item =>
      if confirmed_item.id = incoming_item.id then some (.Skip confirmed_change)
      else transform_one_go incoming_change rest
    | .Remove confirmed_item, .Edit incoming_item _ =>
      if confirmed_item.id = incoming_item.id then none
      else transform_one_go incoming_change rest
    | .Remove _, .Add _ => transform_one_go incoming_change rest
    | .Add confirmed_item, .Remove incoming_item =>
      if confirmed_item.id = incoming_item.id then some (.Apply incoming_change)
      else transform_one_go incoming_change rest
    | .Edit _ _, .Remove _ => transform_one_go incoming_change rest
    | .Root, _ => transform_one_go incoming_change rest
    | _, .Root => none

/-- `fn transform_one`: scan the confirmed changes in reverse. -/
def transform_one (confirmed_changes : List Change) (incoming_change : Change) :
    Option TransformResult :=
  transform_one_go incoming_change confirmed_changes.reverse

/-- Loop of `fn transform`: remap each incoming change, transform it, and on
a skip against an `Add` or `Edit` record the id remap for later incoming
changes.  The output is accumulated in reverse. -/
def transform_go (confirmed_changes : List Change) :
    List Change → List Change → List (Id × Id) → Option (List Change)
  | [], acc, _ => some acc.reverse
  | c :: rest, acc, id_map =>
    let incoming_change := c.update_item_id id_map
    match transform_one confirmed_changes incoming_change with
    | none => none
    | some (.Apply change) => transform_go confirmed_changes rest (change :: acc) id_map
    | some (.Skip conflicting_change) =>
      match incoming_change.operation, conflicting_change.operation with
      | .Add incoming_item, .Add existing_item =>
        transform_go confirmed_changes rest acc ((incoming_item.id, existing_item.id) :: id_map)
      | .Add incoming_item, .Edit existing_item _ =>
        transform_go confirmed_changes rest acc ((incoming_item.id, existing_item.id) :: id_map)
      | _, _ => transform_go confirmed_changes rest acc id_map

/-- `fn transform`. -/
def transform (confirmed_changes incoming_changes : List Change) : Option (List Change) :=
  transform_go confirmed_changes incoming_changes [] []

/-- `struct ServerList`: the root list plus the agent-id counter. -/
structure ServerList where
  list : LList
  max_agent_id : Nat
  deriving DecidableEq, Repr

/-- `ServerList::new`. -/
def ServerList.new (ts : Nat) : ServerList :=
  ⟨LList.new 0 ts, 0⟩

/-- `ServerList::snapshot`: mint the next agent id and snapshot the root
list with it. -/
def ServerList.snapshot (s : ServerList) : LList × ServerList :=
  (s.list.snapshot (s.max_agent_id + 1), { s with max_agent_id := s.max_agent_id + 1 })

/-- `ServerList::commit`: squash the incoming slice; if its anchor is the
root's last record, fast-path apply the rest, otherwise rebase it with
`transform` against `changes_since(anchor)` and apply that.  Panics
(`unreachable`) when the root is not at head, and propagates panics from
indexing, `transform` and `apply_all`.  On an apply error the mutated root
state is kept, as in the source. -/
def ServerList.commit (s : ServerList) (changes : List Change) : ROut (List Change) ServerList :=
  if ¬ s.list.changes.is_at_head then .panic
  else
    let changes := squash_changes changes
    match changes[0]?, s.list.changes.changes.getLast? with
    | some c0, some last_change =>
      if c0 = last_change then
        match s.list.apply_all (changes.drop 1) with
        | .ok _ l' => .ok (changes.drop 1) { s with list := l' }
        | .err e l' => .err e { s with list := l' }
        | .panic => .panic
      else
        match s.list.changes.changes_since c0 with
        | none => .panic
        | some confirmed_changes =>
          let incoming_changes := changes.drop 1
          match transform confirmed_changes incoming_changes with
          | none => .panic
          | some new_changes =>
            match s.list.apply_all new_changes with
            | .ok _ l' => .ok (confirmed_changes ++ new_changes) { s with list := l' }
            | .err e l' => .err e { s with list := l' }
            | .panic => .panic
    | _, _ => .panic

/-- Decimal digits of a `u32`, big-endian, via a fuel recursion
(`least-significant first, then reversed`); models `format` of an unsigned
integer. -/
def toDecAux : Nat → Nat → List Nat
  | 0, _ => []
  | fuel + 1, n => if n = 0 then [] else n % 10 :: toDecAux fuel (n / 10)

/-- Decimal character rendering of a `u32` (`"0"` for zero). -/
def natDecChars (n : Nat) : List Char :=
  if n = 0 then ['0'] else ((toDecAux n n).reverse.map Nat.digitChar)

/-- `impl Serialize for Id`: the textual form `"<agent>:<id>"`, as a
character list. -/
def Id.formatChars (i : Id) : List Char :=
  natDecChars i.agent ++ ':' :: natDecChars i.id

/-- One decimal digit, or `none` for any other character. -/
def decDigit? (c : Char) : Option Nat :=
  if '0' ≤ c ∧ c ≤ '9' then some (c.toNat - '0'.toNat) else none

/-- Accumulating decimal parse; fails on the first non-digit. -/
def parseDecAux : List Char → Nat → Option Nat
  | [], acc => some acc
  | c :: cs, acc =>
    match decDigit? c with
    | some d => parseDecAux cs (acc * 10 + d)
    | none => none

/-- `str::parse::<u32>` on the digit path: non-empty all-digit strings whose
value fits in 32 bits (Rust rejects overflow during accumulation, which for
digit strings is equivalent to this final bound check). -/
def parseU32 (s : List Char) : Option Nat :=
  if s.isEmpty then none
  else
    match parseDecAux s 0 with
    | some v => if v < 2 ^ 32 then some v else none
    | none => none

/-- `s.find(":")`: index of the first colon. -/
def findColon : List Char → Option Nat
  | [] => none
  | c :: cs => if c = ':' then some 0 else (findColon cs).map (· + 1)

/-- `IdVisitor::visit_str`: split at the first colon and parse both halves
as `u32`. -/
def Id.parseChars (s : List Char) : Option Id :=
  match findColon s with
  | none => none
  | some i =>
    match parseU32 (s.take i), parseU32 (s.drop (i + 1)) with
    | some agent, some id => some ⟨agent, id⟩
    | _, _ => none

/-- Extract the post-state of a method call, with a default for panics. -/
def ROut.stateD {α σ : Type} (d : σ) : ROut α σ → σ
  | .ok _ s => s
  | .err _ s => s
  | .panic => d

/-- No two items of the list share a title. -/
def TitlesDistinct (l : LList) : Prop :=
  l.items.Pairwise (fun a b => a.title ≠ b.title)

/-- No two items of the list share an id. -/
def IdsDistinct (l : LList) : Prop :=
  l.items.Pairwise (fun a b => a.id ≠ b.id)

/-- Every item carrying this replica's agent id has a local id no larger
than the replica's counter, so the next minted id is fresh. -/
def IdsBounded (l : LList) : Prop :=
  ∀ it ∈ l.items, it.id.agent = l.agent_id → it.id.id ≤ l.max_item_id

/-- The replica-local invariant preserved by the user-level operations. -/
def LocalInv (l : LList) : Prop :=
  IdsDistinct l ∧ TitlesDistinct l ∧ IdsBounded l

instance (l : LList) : Decidable (TitlesDistinct l) := by
  unfold TitlesDistinct; infer_instance

instance (l : LList) : Decidable (IdsDistinct l) := by
  unfold IdsDistinct; infer_instance

instance (l : LList) : Decidable (IdsBounded l) := by
  unfold IdsBounded; infer_instance

instance (l : LList) : Decidable (LocalInv l) := by
  unfold LocalInv; infer_instance

/-- Root states reachable from `ServerList::new` by `snapshot` and
successful `commit` calls. -/
inductive Reachable : ServerList → Prop where
  | new (ts : Nat) : Reachable (ServerList.new ts)
  | snapshot {s : ServerList} : Reachable s → Reachable (s.snapshot).2
  | commit {s : ServerList} {cs out : List Change} {s' : ServerList} :
      Reachable s → s.commit cs = .ok out s' → Reachable s'

/-- Whether a change is an `Edit` (the only operation `squash_one` folds). -/
def isEditChange (c : Change) : Bool :=
  match c.operation with
  | .Edit _ _ => true
  | _ => false

/-! Concrete states used by witnesses, counterexamples and failing inputs.
`demo_l0` is a fresh replica taken from a fresh root; the others follow the
user-level API step by step. -/

def demo_l0 : LList := ((ServerList.new 0).snapshot).1

def demo_l1 : LList := (demo_l0.add "a" 1).stateD demo_l0

def demo_l2 : LList := (demo_l1.add "b" 2).stateD demo_l0

def demo_l3 : LList := (demo_l2.update ⟨1, 2⟩ ⟨some "a", none, none⟩ 3).stateD demo_l0

def demo_root0 : ServerList := ServerList.new 0

def demo_replica : LList := ((demo_root0.snapshot).1.add "a" 1).stateD (demo_root0.snapshot).1

def demo_commit : ROut (List Change) ServerList :=
  (demo_root0.snapshot).2.commit demo_replica.changes_to_commit

def demo_root1 : ServerList := demo_commit.stateD (demo_root0.snapshot).2

def c2_itemA : ListItem := ⟨⟨1, 1⟩, "a", false, 1⟩

def c2_itemB : ListItem := ⟨⟨1, 2⟩, "b", false, 1⟩

def c2_slice : List Change := [⟨0, .Root⟩, ⟨1, .Add c2_itemA⟩, ⟨2, .Remove c2_itemB⟩]

def c2_post : ServerList := ((ServerList.new 0).commit c2_slice).stateD (ServerList.new 0)

def c5_x : ListItem := ⟨⟨1, 1⟩, "a", false, 1⟩

def c5_y : ListItem := ⟨⟨1, 1⟩, "b", false, 1⟩

def c5_s1 : ServerList :=
  ((ServerList.new 0).commit [⟨0, .Root⟩, ⟨1, .Add c5_x⟩]).stateD (ServerList.new 0)

def c5_s2 : ServerList :=
  (c5_s1.commit [⟨0, .Root⟩, ⟨2, .Remove c5_x⟩]).stateD c5_s1

def c7_z : ListItem := ⟨⟨1, 1⟩, "z", false, 1⟩

def c7_a : ListItem := ⟨⟨1, 1⟩, "a", false, 1⟩

def c7_b : ListItem := ⟨⟨1, 1⟩, "b", false, 1⟩

def c7_slice : List Change := [⟨0, .Add c7_z⟩, ⟨1, .Edit c7_a c7_b⟩, ⟨2, .Edit c7_z c7_a⟩]

def c7_single : List Change := [⟨0, .Add c7_z⟩, ⟨1, .Edit c7_z c7_a⟩]

def c8_c : ListItem := ⟨⟨1, 1⟩, "x", false, 1⟩

def c8_i : ListItem := ⟨⟨2, 5⟩, "x", false, 3⟩

def c10_post : LList := (demo_l2.place_after ⟨1, 2⟩ none).stateD demo_l0

/-! ## Theorems for the claims -/

/-- C1 (counterexample): on a fresh replica the successful sequence
`add "a"; add "b"; update((1,2), title := "a")` leaves two items with the
title `"a"`, so the title-uniqueness invariant does not survive `update`. -/
theorem C1_counterexample :
    demo_l0.add "a" 1 = .ok ⟨⟨1, 1⟩, "a", false, 1⟩ demo_l1 ∧
    demo_l1.add "b" 2 = .ok ⟨⟨1, 2⟩, "b", false, 2⟩ demo_l2 ∧
    demo_l2.update ⟨1, 2⟩ ⟨some "a", none, none⟩ 3 = .ok ⟨⟨1, 2⟩, "a", false, 2⟩ demo_l3 ∧
    ¬ TitlesDistinct demo_l3 := by
  refine ⟨by with_unfolding_all decide, by with_unfolding_all decide, by with_unfolding_all decide, by with_unfolding_all decide⟩

/-- C2 (failing input): committing the slice `[Root, Add a, Remove b]` to a
fresh root fails at the `Remove` (NotFound), yet the root keeps both pushed
log records (1 record grows to 3) and its items become `[a, b]` — the
rollback reverted the failed `Remove` (re-inserting `b`) instead of the
applied `Add`.  The claim says items and log equal their pre-commit
values. -/
theorem C2_bug :
    (ServerList.new 0).commit c2_slice = .err .notFound c2_post ∧
    c2_post.list.items = [c2_itemA, c2_itemB] ∧
    (ServerList.new 0).list.items = [] ∧
    c2_post.list.changes.changes.length = 3 ∧
    (ServerList.new 0).list.changes.changes.length = 1 := by
  refine ⟨by with_unfolding_all decide, by with_unfolding_all decide, by with_unfolding_all decide, by with_unfolding_all decide, by with_unfolding_all decide⟩

/-- C3 (counterexample): after one successful commit on a fresh root the
root's log has `fork = 0` but `head = 1`, so `fork == head == len - 1`
fails: `commit` never advances the root's `fork`. -/
theorem C3_counterexample :
    demo_commit = .ok [⟨1, .Add ⟨⟨1, 1⟩, "a", false, 1⟩⟩] demo_root1 ∧
    demo_root1.list.changes.fork ≠ demo_root1.list.changes.head := by
  refine ⟨by with_unfolding_all decide, by with_unfolding_all decide⟩

/-- C4 (counterexample): the same reachable root has a 2-record log, and the
replica returned by its `snapshot` carries a copy of the full log — 2
records with `head = 1` — not the single-record log with
`fork == head == 0` the claim describes. -/
theorem C4_counterexample :
    demo_commit = .ok [⟨1, .Add ⟨⟨1, 1⟩, "a", false, 1⟩⟩] demo_root1 ∧
    (demo_root1.snapshot).1.changes.changes.length ≠ 1 ∧
    (demo_root1.snapshot).1.changes.head ≠ 0 := by
  refine ⟨by with_unfolding_all decide, by with_unfolding_all decide, by with_unfolding_all decide⟩

/-- C4 (amended): `Root.snapshot()` hands the new replica a copy of the
root's whole change log — same records, same fork, same head — together
with a copy of the items, a freshly minted agent id and a reset local-id
counter. -/
theorem C4_amended (s : ServerList) :
    (s.snapshot).1.changes = s.list.changes ∧
    (s.snapshot).1.items = s.list.items ∧
    (s.snapshot).1.agent_id = s.max_agent_id + 1 ∧
    (s.snapshot).1.max_item_id = 0 ∧
    (s.snapshot).2.list = s.list := by
  exact ⟨rfl, rfl, rfl, rfl, rfl⟩

/-- C5 (failing input): seed a root with `Add x` then `Remove x` by two
commits; a third commit whose rebase meets the confirmed `Remove x` against
an incoming `Edit x` hits the source's `todo!()` and panics instead of
returning a `CannotCommit` error. -/
theorem C5_bug :
    (ServerList.new 0).commit [⟨0, .Root⟩, ⟨1, .Add c5_x⟩] = .ok [⟨1, .Add c5_x⟩] c5_s1 ∧
    c5_s1.commit [⟨0, .Root⟩, ⟨2, .Remove c5_x⟩]
      = .ok [⟨1, .Add c5_x⟩, ⟨2, .Remove c5_x⟩] c5_s2 ∧
    c5_s2.commit [⟨0, .Root⟩, ⟨3, .Edit c5_x c5_y⟩] = .panic := by
  refine ⟨by with_unfolding_all decide, by with_unfolding_all decide, by with_unfolding_all decide⟩

/-- C7 (counterexample): squash is not idempotent.  On the slice
`[Add z, Edit a b, Edit z a]` the first squash merges `Edit z a` into the
`Add z`, producing `[Add a, Edit a b]`; squashing again merges further into
`[Add b]`. -/
theorem C7_counterexample :
    squash_changes (squash_changes c7_slice) ≠ squash_changes c7_slice := by
  with_unfolding_all decide

/-- C9 (failing input): with items `[a, b]`, `place_after(a.id, Some b.id)`
names the last item as `after_id`; the source then reads
`items[position + 1]`, which is out of range, and panics instead of
returning `Ok`. -/
theorem C9_bug :
    demo_l2.items = [⟨⟨1, 1⟩, "a", false, 1⟩, ⟨⟨1, 2⟩, "b", false, 2⟩] ∧
    demo_l2.place_after ⟨1, 1⟩ (some ⟨1, 2⟩) = .panic := by
  refine ⟨by with_unfolding_all decide, by with_unfolding_all decide⟩

/-- Helper: a successful `place_after_finish` only rewrites `items`. -/
theorem place_after_finish_changes {l : LList} {pos : Nat} {low high : Rat} {l' : LList}
    (h : LList.place_after_finish l pos low high = .ok () l') :
    l'.changes = l.changes := by
  unfold LList.place_after_finish at h
  split at h
  · injection h with h1 h2
    subst h2
    rfl
  · exact ROut.noConfusion h

/-- C10: a successful `place_after` never touches the replica's change log:
records, head and fork are all unchanged, so `changes_to_commit()` is
unchanged and the reorder is never transmitted to the root. -/
theorem C10_frame (l : LList) (move_id : Id) (after_id : Option Id) (l' : LList)
    (h : l.place_after move_id after_id = .ok () l') :
    l'.changes = l.changes ∧ l'.changes_to_commit = l.changes_to_commit := by
  have hch : l'.changes = l.changes := by
    unfold LList.place_after at h
    split at h
    · exact ROut.noConfusion h
    · split at h
      · split at h
        · exact ROut.noConfusion h
        · split at h
          · split at h
            · exact place_after_finish_changes h
            · exact ROut.noConfusion h
          · split at h
            · exact place_after_finish_changes h
            · exact ROut.noConfusion h
      · split at h
        · split at h
          · injection h with h1 h2
            subst h2
            rfl
          · exact place_after_finish_changes h
        · exact ROut.noConfusion h
  refine ⟨hch, ?_⟩
  unfold LList.changes_to_commit ChangeLog.to_commit
  rw [hch]

/-- C10 (witness): moving item `(1,2)` to the front of the two-item demo
replica succeeds and leaves the change log untouched. -/
theorem C10_witness :
    demo_l2.place_after ⟨1, 2⟩ none = .ok () c10_post ∧ c10_post.changes = demo_l2.changes := by
  have h : demo_l2.place_after ⟨1, 2⟩ none = .ok () c10_post := by
    with_unfolding_all decide
  exact ⟨h, (C10_frame demo_l2 ⟨1, 2⟩ none c10_post h).1⟩

/-- Helper: `push_change` on a log that is at head appends the record,
advances `head`, keeps `fork`, and stays at head. -/
theorem push_change_ok_spec {log : ChangeLog} {c : Change} {log' : ChangeLog}
    (hhead : log.is_at_head = true) (h : log.push_change c = some log') :
    log'.changes = log.changes ++ [c] ∧ log'.head = log.head + 1 ∧
    log'.fork = log.fork ∧ log'.is_at_head = true := by
  unfold ChangeLog.is_at_head at hhead
  rw [beq_iff_eq] at hhead
  unfold ChangeLog.push_change ChangeLog.next at h
  split at h
  · rename_i hlt
    split at h
    · rename_i c' hget
      simp only [Option.map_some'] at h
      injection h with h1
      subst h1
      refine ⟨rfl, rfl, rfl, ?_⟩
      simp only [List.length_append, List.length_cons, List.length_nil] at hlt
      simp only [ChangeLog.is_at_head, List.length_append, List.length_cons, List.length_nil,
        beq_iff_eq]
      omega
    · simp at h
  · simp at h

/-- Helper: a successful `apply` only rewrites `items`. -/
theorem apply_ok_changes {l : LList} {c : Change} {v : Unit} {l' : LList}
    (h : l.apply c = .ok v l') : l'.changes = l.changes := by
  unfold LList.apply at h
  split at h
  · injection h with h1 h2
    subst h2
    rfl
  · split at h
    · injection h with h1 h2
      subst h2
      rfl
    · exact ROut.noConfusion h
  · split at h
    · injection h with h1 h2
      subst h2
      rfl
    · exact ROut.noConfusion h
  · exact ROut.noConfusion h

/-- Helper: a successful `apply_all` loop keeps the log at head and never
shrinks the record list. -/
theorem apply_all_go_inv : ∀ (cs : List Change) (l : LList) (i : Nat) (l' : LList),
    l.changes.is_at_head = true → LList.apply_all_go l cs i = .ok () l' →
    l'.changes.is_at_head = true ∧
      l.changes.changes.length ≤ l'.changes.changes.length := by
  intro cs
  induction cs with
  | nil =>
    intro l i l' hh h
    unfold LList.apply_all_go at h
    injection h with h1 h2
    subst h2
    exact ⟨hh, Nat.le_refl _⟩
  | cons c rest ih =>
    intro l i l' hh h
    unfold LList.apply_all_go at h
    split at h
    · exact ROut.noConfusion h
    · rename_i log' hpc
      split at h
      · rename_i v l2 happ
        have hspec := push_change_ok_spec hh hpc
        have hl2 : l2.changes = log' := apply_ok_changes happ
        have hh2 : l2.changes.is_at_head = true := by rw [hl2]; exact hspec.2.2.2
        obtain ⟨hfin, hlen⟩ := ih l2 (i + 1) l' hh2 h
        refine ⟨hfin, ?_⟩
        have hstep : l2.changes.changes.length = l.changes.changes.length + 1 := by
          rw [hl2, hspec.1]
          simp
        omega
      · split at h
        · exact ROut.noConfusion h
        · exact ROut.noConfusion h
      · exact ROut.noConfusion h

/-- Helper: a successful `commit` keeps the root's log at head and never
shrinks its record list. -/
theorem commit_ok_log_inv {s : ServerList} {cs out : List Change} {s' : ServerList}
    (hh : s.list.changes.is_at_head = true) (h : s.commit cs = .ok out s') :
    s'.list.changes.is_at_head = true ∧
      s.list.changes.changes.length ≤ s'.list.changes.changes.length := by
  unfold ServerList.commit at h
  rw [hh] at h
  simp only [eq_self_iff_true, not_true, if_false] at h
  split at h
  · split at h
    · split at h
      · rename_i v l' happ
        injection h with h1 h2
        subst h2
        unfold LList.apply_all at happ
        exact apply_all_go_inv _ _ _ _ hh happ
      · exact ROut.noConfusion h
      · exact ROut.noConfusion h
    · split at h
      · exact ROut.noConfusion h
      · rename_i confirmed hcs
        split at h
        · exact ROut.noConfusion h
        · rename_i new_changes htr
          split at h
          · rename_i v l' happ
            injection h with h1 h2
            subst h2
            unfold LList.apply_all at happ
            exact apply_all_go_inv _ _ _ _ hh happ
          · exact ROut.noConfusion h
          · exact ROut.noConfusion h
  · exact ROut.noConfusion h

/-- C3 (amended): in every root state reachable from `ServerList::new` by
`snapshot` and successful `commit` calls, the log is at head — the code's
own `is_at_head` invariant, i.e. `head == len(records) - 1` — with a
non-empty record list.  The claimed `fork == head` part is false: `commit`
never advances the root's fork (see the counterexample). -/
theorem C3_amended {s : ServerList} (h : Reachable s) :
    s.list.changes.is_at_head = true ∧ s.list.changes.changes ≠ [] := by
  induction h with
  | new ts => exact ⟨rfl, by simp [ServerList.new, LList.new, ChangeLog.new]⟩
  | snapshot hr ih => exact ih
  | commit hr hc ih =>
    obtain ⟨hhead, hne⟩ := ih
    obtain ⟨hhead', hlen⟩ := commit_ok_log_inv hhead hc
    refine ⟨hhead', ?_⟩
    have h1 := List.length_pos.mpr hne
    exact List.ne_nil_of_length_pos (Nat.lt_of_lt_of_le h1 hlen)

/-- C3 (witness): the fresh root satisfies the amended invariant. -/
theorem C3_witness :
    (ServerList.new 0).list.changes.is_at_head = true ∧
      (ServerList.new 0).list.changes.changes ≠ [] :=
  C3_amended (Reachable.new 0)

/-- Helper: `squash_one` only fires on an `Edit`. -/
theorem squash_one_none_of_not_edit {o c : Change} (hc : isEditChange c = false) :
    squash_one o c = none := by
  rcases o with ⟨ts1, op1⟩
  rcases c with ⟨ts2, op2⟩
  cases op1 <;> cases op2 <;> first
    | rfl
    | simp [isEditChange] at hc

/-- Helper: merging a non-`Edit` change always fails. -/
theorem tryMergeRev_none_of_not_edit {c : Change} (hc : isEditChange c = false) :
    ∀ acc : List Change, tryMergeRev acc c = none := by
  intro acc
  induction acc with
  | nil => rfl
  | cons o rest ih => simp only [tryMergeRev, squash_one_none_of_not_edit hc, ih]

/-- Helper: on an `Edit`-free input the squash loop just reverses. -/
theorem squashRevAux_all_nonedit {l : List Change} (hl : ∀ c ∈ l, isEditChange c = false) :
    ∀ acc : List Change, squashRevAux acc l = l.reverse ++ acc := by
  induction l with
  | nil => intro acc; simp [squashRevAux]
  | cons c cs ih =>
    intro acc
    have hc := hl c (by simp)
    have hcs : ∀ x ∈ cs, isEditChange x = false := fun x hx => hl x (by simp [hx])
    simp only [squashRevAux, tryMergeRev_none_of_not_edit hc]
    rw [ih hcs (c :: acc)]
    simp

/-- Helper: squash is the identity on `Edit`-free slices. -/
theorem squash_changes_all_nonedit {l : List Change} (hl : ∀ c ∈ l, isEditChange c = false) :
    squash_changes l = l := by
  unfold squash_changes
  rw [squashRevAux_all_nonedit hl []]
  simp

/-- Helper: a successful `squash_one` produces an `Add`. -/
theorem squash_one_some_not_edit {o c o' : Change} (h : squash_one o c = some o') :
    isEditChange o' = false := by
  unfold squash_one at h
  split at h
  · split at h
    · injection h with h1
      subst h1
      rfl
    · exact Option.noConfusion h
  · exact Option.noConfusion h

/-- Helper: merging into an `Edit`-free accumulator keeps it `Edit`-free. -/
theorem tryMergeRev_some_nonedit {acc acc' : List Change} {c : Change}
    (h : tryMergeRev acc c = some acc') (hacc : ∀ o ∈ acc, isEditChange o = false) :
    ∀ o ∈ acc', isEditChange o = false := by
  induction acc generalizing acc' with
  | nil => exact Option.noConfusion h
  | cons o rest ih =>
    unfold tryMergeRev at h
    split at h
    · rename_i o' hso
      injection h with h1
      subst h1
      intro x hx
      rcases List.mem_cons.mp hx with rfl | hx2
      · exact squash_one_some_not_edit hso
      · exact hacc x (List.mem_cons_of_mem _ hx2)
    · split at h
      · rename_i rest' hrest
        injection h with h1
        subst h1
        intro x hx
        rcases List.mem_cons.mp hx with rfl | hx2
        · exact hacc x (List.mem_cons_self _ _)
        · exact ih hrest (fun y hy => hacc y (List.mem_cons_of_mem _ hy)) x hx2
      · exact Option.noConfusion h

/-- Helper: the squash loop distributes over append. -/
theorem squashRevAux_append (l1 l2 : List Change) : ∀ acc : List Change,
    squashRevAux acc (l1 ++ l2) = squashRevAux (squashRevAux acc l1) l2 := by
  induction l1 with
  | nil => intro acc; rfl
  | cons c cs ih =>
    intro acc
    show squashRevAux acc (c :: (cs ++ l2)) = _
    cases htm : tryMergeRev acc c with
    | some acc' =>
      simp only [squashRevAux, htm]
      exact ih acc'
    | none =>
      simp only [squashRevAux, htm]
      exact ih (c :: acc)

/-- Helper: a slice with at most one `Edit` is `Edit`-free or splits around
its unique `Edit`. -/
theorem count_le_one_split {l : List Change} (h : l.countP isEditChange ≤ 1) :
    (∀ c ∈ l, isEditChange c = false) ∨
    ∃ u e v, l = u ++ e :: v ∧ isEditChange e = true ∧
      (∀ c ∈ u, isEditChange c = false) ∧ (∀ c ∈ v, isEditChange c = false) := by
  induction l with
  | nil => left; simp
  | cons c cs ih =>
    rw [List.countP_cons] at h
    cases hc : isEditChange c with
    | false =>
      have h' : cs.countP isEditChange ≤ 1 := by simp [hc] at h; omega
      rcases ih h' with hall | ⟨u, e, v, heq, he, hu, hv⟩
      · left
        intro x hx
        rcases List.mem_cons.mp hx with rfl | hx
        · exact hc
        · exact hall x hx
      · right
        refine ⟨c :: u, e, v, by simp [heq], he, ?_, hv⟩
        intro x hx
        rcases List.mem_cons.mp hx with rfl | hx
        · exact hc
        · exact hu x hx
    | true =>
      simp [hc] at h
      right
      refine ⟨[], c, cs, by simp, hc, by simp, ?_⟩
      intro x hx
      exact h x hx

/-- C7 (amended): squash is idempotent on every slice containing at most
one `Edit` operation.  In general squash is not idempotent: with two edits
a late merge can expose a new `Add`/`Edit` pair for a second pass (see the
counterexample). -/
theorem C7_amended (s : List Change) (h : s.countP isEditChange ≤ 1) :
    squash_changes (squash_changes s) = squash_changes s := by
  rcases count_le_one_split h with hall | ⟨u, e, v, rfl, he, hu, hv⟩
  · rw [squash_changes_all_nonedit hall, squash_changes_all_nonedit hall]
  · have hu' : ∀ c ∈ u.reverse, isEditChange c = false := by
      intro c hc
      exact hu c (List.mem_reverse.mp hc)
    have hcompute : squash_changes (u ++ e :: v) = (squashRevAux u.reverse (e :: v)).reverse := by
      unfold squash_changes
      rw [squashRevAux_append u (e :: v) [], squashRevAux_all_nonedit hu []]
      simp
    cases htm : tryMergeRev u.reverse e with
    | none =>
      have h1 : squashRevAux u.reverse (e :: v) = v.reverse ++ e :: u.reverse := by
        simp only [squashRevAux, htm]
        exact squashRevAux_all_nonedit hv (e :: u.reverse)
      have h2 : squash_changes (u ++ e :: v) = u ++ e :: v := by
        rw [hcompute, h1]
        simp
      rw [h2]
      exact h2
    | some acc' =>
      have hacc' : ∀ o ∈ acc', isEditChange o = false := tryMergeRev_some_nonedit htm hu'
      have h1 : squashRevAux u.reverse (e :: v) = v.reverse ++ acc' := by
        simp only [squashRevAux, htm]
        exact squashRevAux_all_nonedit hv acc'
      have h2 : squash_changes (u ++ e :: v) = acc'.reverse ++ v := by
        rw [hcompute, h1]
        simp
      have hall2 : ∀ c ∈ acc'.reverse ++ v, isEditChange c = false := by
        intro x hx
        rcases List.mem_append.mp hx with hx | hx
        · exact hacc' x (List.mem_reverse.mp hx)
        · exact hv x hx
      rw [h2]
      exact squash_changes_all_nonedit hall2

/-- C7 (witness): the single-edit slice `[Add z, Edit z a]` satisfies the
hypothesis and squash is idempotent on it. -/
theorem C7_witness :
    c7_single.countP isEditChange ≤ 1 ∧
      squash_changes (squash_changes c7_single) = squash_changes c7_single :=
  ⟨by with_unfolding_all decide, C7_amended c7_single (by with_unfolding_all decide)⟩

/-- Helper: all entries produced by `toDecAux` are decimal digits. -/
theorem toDecAux_lt_ten : ∀ (fuel n : Nat), ∀ d ∈ toDecAux fuel n, d < 10 := by
  intro fuel
  induction fuel with
  | zero => intro n d hd; simp [toDecAux] at hd
  | succ f ih =>
    intro n d hd
    unfold toDecAux at hd
    split at hd
    · simp at hd
    · rcases List.mem_cons.mp hd with rfl | hd2
      · exact Nat.mod_lt _ (by norm_num)
      · exact ih _ d hd2

/-- Helper: `parseDecAux` processes an append left to right. -/
theorem parseDecAux_append (xs ys : List Char) : ∀ acc : Nat,
    parseDecAux (xs ++ ys) acc =
      match parseDecAux xs acc with
      | some v => parseDecAux ys v
      | none => none := by
  induction xs with
  | nil => intro acc; rfl
  | cons c cs ih =>
    intro acc
    show parseDecAux (c :: (cs ++ ys)) acc = _
    cases hd : decDigit? c with
    | some d =>
      simp only [parseDecAux, hd]
      exact ih _
    | none => simp only [parseDecAux, hd]

/-- Helper: `decDigit?` inverts `Nat.digitChar` on digits. -/
theorem decDigit?_digitChar {d : Nat} (hd : d < 10) :
    decDigit? (Nat.digitChar d) = some d := by
  interval_cases d <;> decide

/-- Helper: digit characters are not the colon separator. -/
theorem digitChar_ne_colon {d : Nat} (hd : d < 10) : Nat.digitChar d ≠ ':' := by
  interval_cases d <;> decide

/-- Helper: parsing the big-endian digits of `n` recovers `n`. -/
theorem parseDecAux_toDecAux : ∀ (fuel n : Nat), n ≤ fuel → ∀ acc : Nat,
    parseDecAux ((toDecAux fuel n).reverse.map Nat.digitChar) acc =
      some (acc * 10 ^ (toDecAux fuel n).length + n) := by
  intro fuel
  induction fuel with
  | zero =>
    intro n hn acc
    have h0 : n = 0 := by omega
    subst h0
    simp [toDecAux, parseDecAux]
  | succ f ih =>
    intro n hn acc
    by_cases h0 : n = 0
    · subst h0
      simp [toDecAux, parseDecAux]
    · have hrec : n / 10 ≤ f := by
        have h1 : n / 10 < n := Nat.div_lt_self (Nat.pos_of_ne_zero h0) (by norm_num)
        omega
      have hunf : toDecAux (f + 1) n = n % 10 :: toDecAux f (n / 10) := by
        rw [toDecAux, if_neg h0]
      rw [hunf]
      simp only [List.reverse_cons, List.map_append, List.map_cons, List.map_nil]
      rw [parseDecAux_append]
      rw [ih (n / 10) hrec acc]
      have hm : n % 10 < 10 := Nat.mod_lt _ (by norm_num)
      simp only [parseDecAux, decDigit?_digitChar hm]
      congr 1
      have hpow : (10 : Nat) ^ ((toDecAux f (n / 10)).length + 1)
          = 10 ^ (toDecAux f (n / 10)).length * 10 := pow_succ 10 _
      simp only [List.length_cons, hpow]
      have hexp : (acc * 10 ^ (toDecAux f (n / 10)).length + n / 10) * 10 + n % 10
          = acc * (10 ^ (toDecAux f (n / 10)).length * 10) + (n / 10 * 10 + n % 10) := by
        ring
      rw [hexp]
      omega

/-- Helper: the decimal rendering of a `u32` parses back to it. -/
theorem parseU32_natDecChars {n : Nat} (hn : n < 2 ^ 32) :
    parseU32 (natDecChars n) = some n := by
  by_cases h0 : n = 0
  · subst h0
    decide
  · unfold natDecChars
    rw [if_neg h0]
    have hne : toDecAux n n ≠ [] := by
      rcases n with _ | m
      · exact absurd rfl h0
      · unfold toDecAux
        simp
    have hnil : (toDecAux n n).reverse.map Nat.digitChar ≠ [] := by
      simp [hne]
    unfold parseU32
    rw [if_neg (by simpa [List.isEmpty_iff] using hnil)]
    rw [parseDecAux_toDecAux n n (Nat.le_refl n) 0]
    have h2 : (2 : Nat) ^ 32 = 4294967296 := by norm_num
    have hn' : n < 4294967296 := h2 ▸ hn
    simp [hn, hn']

/-- Helper: no colon occurs in a decimal rendering. -/
theorem natDecChars_no_colon (n : Nat) : ∀ c ∈ natDecChars n, c ≠ ':' := by
  intro c hc
  unfold natDecChars at hc
  split at hc
  · simp at hc
    subst hc
    decide
  · simp only [List.mem_map, List.mem_reverse] at hc
    obtain ⟨d, hd, rfl⟩ := hc
    exact digitChar_ne_colon (toDecAux_lt_ten _ _ d hd)

/-- Helper: `findColon` finds the separator after a colon-free prefix. -/
theorem findColon_append (l1 l2 : List Char) (h : ∀ c ∈ l1, c ≠ ':') :
    findColon (l1 ++ ':' :: l2) = some l1.length := by
  induction l1 with
  | nil => simp [findColon]
  | cons c cs ih =>
    have hc : c ≠ ':' := h c (by simp)
    have hcs : ∀ x ∈ cs, x ≠ ':' := fun x hx => h x (by simp [hx])
    rw [List.cons_append, findColon, if_neg hc, ih hcs]
    simp

/-- C6: for every pair of `u32` values, parsing the serialized textual form
`"<agent>:<id>"` of `Identifier(agent, id)` yields the identifier back:
`parse(format(id)) = id`. -/
theorem C6_round_trip (a n : Nat) (ha : a < 2 ^ 32) (hn : n < 2 ^ 32) :
    Id.parseChars (Id.formatChars ⟨a, n⟩) = some ⟨a, n⟩ := by
  unfold Id.formatChars Id.parseChars
  have hnc : ∀ c ∈ natDecChars a, c ≠ ':' := natDecChars_no_colon a
  have htake : (natDecChars a ++ ':' :: natDecChars n).take (natDecChars a).length
      = natDecChars a := List.take_left _ _
  have hdrop : (natDecChars a ++ ':' :: natDecChars n).drop ((natDecChars a).length + 1)
      = natDecChars n := by
    have hsplit : natDecChars a ++ ':' :: natDecChars n
        = (natDecChars a ++ [':']) ++ natDecChars n := by simp
    have hlen : (natDecChars a ++ [':']).length = (natDecChars a).length + 1 := by simp
    rw [hsplit, ← hlen, List.drop_left]
  rw [findColon_append _ _ hnc]
  dsimp only
  rw [htake, hdrop, parseU32_natDecChars ha, parseU32_natDecChars hn]

/-- C6 (witness): the round trip at the concrete identifier `(1, 2)`. -/
theorem C6_witness :
    (1 : Nat) < 2 ^ 32 ∧ (2 : Nat) < 2 ^ 32 ∧
      Id.parseChars (Id.formatChars ⟨1, 2⟩) = some ⟨1, 2⟩ :=
  ⟨by decide, by decide, C6_round_trip 1 2 (by decide) (by decide)⟩

/-- Helper: a successful `listPosition` points at an element satisfying the
predicate. -/
theorem listPosition_some {α : Type} {p : α → Bool} : ∀ {xs : List α} {j : Nat},
    listPosition p xs = some j → ∃ h : j < xs.length, p (xs.get ⟨j, h⟩) = true := by
  intro xs
  induction xs with
  | nil => intro j h; exact Option.noConfusion h
  | cons x rest ih =>
    intro j h
    unfold listPosition at h
    split at h
    · rename_i hx
      injection h with h1
      subst h1
      exact ⟨by simp, hx⟩
    · cases hr : listPosition p rest with
      | none => rw [hr] at h; exact Option.noConfusion h
      | some k =>
        rw [hr] at h
        simp only [Option.map_some'] at h
        injection h with h1
        subst h1
        obtain ⟨hk, hpk⟩ := ih hr
        exact ⟨by simpa using Nat.succ_lt_succ hk, by simpa using hpk⟩

/-- Helper: a successful `List::push` leaves the counters alone and changes
`items` exactly as the pushed operation's `apply` does. -/
theorem push_ok_spec {l : LList} {ts : Nat} {op : Operation} {l' : LList}
    (h : l.push ts op = .ok () l') :
    l'.agent_id = l.agent_id ∧ l'.max_item_id = l.max_item_id ∧
    ((∃ item, op = .Add item ∧ l'.items = l.items ++ [item]) ∨
     (∃ item j, op = .Remove item ∧
        listPosition (fun itm => decide (itm.id = item.id)) l.items = some j ∧
        l'.items = l.items.eraseIdx j) ∨
     (∃ old_item new_item j, op = .Edit old_item new_item ∧
        listPosition (fun itm => decide (itm.id = old_item.id)) l.items = some j ∧
        l'.items = l.items.set j new_item)) := by
  unfold LList.push at h
  split at h
  · exact ROut.noConfusion h
  · rename_i change log' hp
    have hch : change = Change.new ts op := by
      unfold ChangeLog.push at hp
      split at hp
      · rename_i hhead
        unfold ChangeLog.next at hp
        split at hp
        · rename_i hlt
          split at hp
          · rename_i c' hget
            injection hp with hp1
            have hc' : c' = change := congrArg Prod.fst hp1
            rw [ChangeLog.is_at_head, beq_iff_eq] at hhead
            simp only [List.length_append, List.length_cons, List.length_nil] at hlt
            have hidx : l.changes.head + 1 = l.changes.changes.length := by omega
            rw [hidx, List.getElem?_concat_length] at hget
            injection hget with hg
            rw [← hc', hg]
          · exact Option.noConfusion hp
        · exact Option.noConfusion hp
      · exact Option.noConfusion hp
    subst hch
    rcases op with _ | item | item | ⟨old_item, new_item⟩
    · simp only [LList.apply, Change.new] at h
      exact ROut.noConfusion h
    · simp only [LList.apply, Change.new] at h
      injection h with h1 h2
      subst h2
      exact ⟨rfl, rfl, Or.inl ⟨item, rfl, rfl⟩⟩
    · simp only [LList.apply, Change.new] at h
      cases hpos : listPosition (fun itm => decide (itm.id = item.id)) l.items with
      | some j =>
        simp only [hpos] at h
        injection h with h1 h2
        subst h2
        exact ⟨rfl, rfl, Or.inr (Or.inl ⟨item, j, rfl, hpos, rfl⟩)⟩
      | none =>
        simp only [hpos] at h
        split at h
        · exact ROut.noConfusion h
        · exact ROut.noConfusion h
    · simp only [LList.apply, Change.new] at h
      cases hpos : listPosition (fun itm => decide (itm.id = old_item.id)) l.items with
      | some j =>
        simp only [hpos] at h
        injection h with h1 h2
        subst h2
        exact ⟨rfl, rfl, Or.inr (Or.inr ⟨old_item, new_item, j, rfl, hpos, rfl⟩)⟩
      | none =>
        simp only [hpos] at h
        split at h
        · exact ROut.noConfusion h
        · exact ROut.noConfusion h

/-- C1 (amended): the title-uniqueness invariant — together with id
uniqueness and the freshness bound on local ids — is preserved by `add` and
`remove`, and by `update` only under the side condition that the updated
title does not collide with another item's title.  An `update` renaming an
item to an existing title breaks it (see the counterexample). -/
theorem C1_amended (l : LList) (hinv : LocalInv l) :
    (∀ t ts it l', l.add t ts = .ok it l' → LocalInv l') ∧
    (∀ i ts it l', l.remove i ts = .ok it l' → LocalInv l') ∧
    (∀ i u ts it l', l.update i u ts = .ok it l' →
      (∀ other ∈ l.items, other.id ≠ i → other.title ≠ it.title) → LocalInv l') := by
  obtain ⟨hids, htitles, hbound⟩ := hinv
  refine ⟨?_, ?_, ?_⟩
  · -- add
    intro t ts it l' h
    unfold LList.add at h
    cases hf : l.items.find? (fun item => decide (t = item.title)) with
    | some item =>
      simp only [hf] at h
      injection h with h1 h2
      subst h2
      exact ⟨hids, htitles, hbound⟩
    | none =>
      simp only [hf] at h
      split at h
      · rename_i v l2 hpush
        injection h with h1 h2
        subst h2
        obtain ⟨ha, hm, hops⟩ := push_ok_spec hpush
        rcases hops with ⟨item2, heq, hitems⟩ | ⟨item2, j, heq, _, _⟩ |
          ⟨o2, n2, j, heq, _, _⟩
        · injection heq with heq1
          subst heq1
          have ha' : l2.agent_id = l.agent_id := ha
          have hm' : l2.max_item_id = l.max_item_id + 1 := hm
          have hfresh : ∀ x ∈ l.items, x.id ≠ (⟨l.agent_id, l.max_item_id + 1⟩ : Id) := by
            intro x hx heq2
            have hagent : x.id.agent = l.agent_id := by rw [heq2]
            have hle : x.id.id ≤ l.max_item_id := hbound x hx hagent
            have : x.id.id = l.max_item_id + 1 := by rw [heq2]
            omega
          have htfresh : ∀ x ∈ l.items, x.title ≠ t := by
            intro x hx
            have := List.find?_eq_none.mp hf x hx
            simp only [decide_eq_true_eq] at this
            exact fun hh => this hh.symm
          refine ⟨?_, ?_, ?_⟩
          · unfold IdsDistinct
            rw [hitems, List.pairwise_append]
            refine ⟨hids, by simp, ?_⟩
            intro x hx y hy
            simp only [List.mem_singleton] at hy
            subst hy
            simpa using hfresh x hx
          · unfold TitlesDistinct
            rw [hitems, List.pairwise_append]
            refine ⟨htitles, by simp, ?_⟩
            intro x hx y hy
            simp only [List.mem_singleton] at hy
            subst hy
            simpa using htfresh x hx
          · intro x hx hagent
            rw [hitems] at hx
            rw [hm']
            rcases List.mem_append.mp hx with hx1 | hx1
            · rw [ha'] at hagent
              have := hbound x hx1 hagent
              omega
            · simp at hx1
              subst hx1
              simp
        · exact Operation.noConfusion heq
        · exact Operation.noConfusion heq
      · exact ROut.noConfusion h
  · -- remove
    intro i ts it l' h
    unfold LList.remove at h
    cases hf : l.items.find? (fun itm => decide (itm.id = i)) with
    | none =>
      simp only [hf] at h
      exact ROut.noConfusion h
    | some item =>
      simp only [hf] at h
      split at h
      · rename_i v l2 hpush
        injection h with h1 h2
        subst h2
        obtain ⟨ha, hm, hops⟩ := push_ok_spec hpush
        rcases hops with ⟨item2, heq, _⟩ | ⟨item2, j, heq, _, hitems⟩ |
          ⟨o2, n2, j, heq, _, _⟩
        · exact Operation.noConfusion heq
        · refine ⟨?_, ?_, ?_⟩
          · unfold IdsDistinct at hids ⊢
            rw [hitems]
            exact List.Pairwise.sublist (List.eraseIdx_sublist _ _) hids
          · unfold TitlesDistinct at htitles ⊢
            rw [hitems]
            exact List.Pairwise.sublist (List.eraseIdx_sublist _ _) htitles
          · intro x hx hagent
            have ha' : l2.agent_id = l.agent_id := ha
            have hm' : l2.max_item_id = l.max_item_id := hm
            rw [hitems] at hx
            have hx' : x ∈ l.items := (List.eraseIdx_sublist _ _).subset hx
            rw [ha'] at hagent
            rw [hm']
            exact hbound x hx' hagent
        · exact Operation.noConfusion heq
      · exact ROut.noConfusion h
      · exact ROut.noConfusion h
  · -- update
    intro i u ts it l' h hcond
    unfold LList.update at h
    cases hf : l.items.find? (fun item => decide (item.id = i)) with
    | none =>
      simp only [hf] at h
      exact ROut.noConfusion h
    | some old_item =>
      have hold_id : old_item.id = i := by
        have := List.find?_some hf
        simpa using this
      have hold_mem : old_item ∈ l.items := List.mem_of_find?_eq_some hf
      simp only [hf] at h
      split at h
      · rename_i v l2 hpush
        injection h with h1 h2
        subst h2
        subst h1
        obtain ⟨ha, hm, hops⟩ := push_ok_spec hpush
        rcases hops with ⟨item2, heq, _⟩ | ⟨item2, j, heq, _, _⟩ |
          ⟨o2, n2, j, heq, hpos, hitems⟩
        · exact Operation.noConfusion heq
        · exact Operation.noConfusion heq
        · injection heq with he1 he2
          subst he1
          subst he2
          obtain ⟨hjlt, hjp⟩ := listPosition_some hpos
          have hjid : (l.items.get ⟨j, hjlt⟩).id = old_item.id := of_decide_eq_true hjp
          have hnewid : (u.update old_item).id = old_item.id := rfl
          have ha' : l2.agent_id = l.agent_id := ha
          have hm' : l2.max_item_id = l.max_item_id := hm
          have hidsG := (List.pairwise_iff_getElem).mp hids
          have htitlesG := (List.pairwise_iff_getElem).mp htitles
          refine ⟨?_, ?_, ?_⟩
          · unfold IdsDistinct
            rw [hitems, List.pairwise_iff_getElem]
            intro i1 i2 h1 h2 hlt12
            simp only [List.length_set] at h1 h2
            rw [List.getElem_set, List.getElem_set]
            by_cases e1 : j = i1
            · subst e1
              rw [if_pos rfl, if_neg (by omega)]
              rw [hnewid, ← hjid]
              have := hidsG j i2 hjlt h2 hlt12
              simpa [List.get_eq_getElem] using this
            · rw [if_neg e1]
              by_cases e2 : j = i2
              · subst e2
                rw [if_pos rfl, hnewid, ← hjid]
                have := hidsG i1 j h1 hjlt hlt12
                simpa [List.get_eq_getElem] using this
              · rw [if_neg e2]
                exact hidsG i1 i2 h1 h2 hlt12
          · unfold TitlesDistinct
            rw [hitems, List.pairwise_iff_getElem]
            intro i1 i2 h1 h2 hlt12
            simp only [List.length_set] at h1 h2
            rw [List.getElem_set, List.getElem_set]
            by_cases e1 : j = i1
            · subst e1
              rw [if_pos rfl, if_neg (by omega)]
              by_cases hid2 : l.items[i2].id = i
              · exfalso
                have hji : (l.items.get ⟨j, hjlt⟩).id = i := by rw [hjid, hold_id]
                have hne := hidsG j i2 hjlt h2 hlt12
                rw [List.get_eq_getElem] at hji
                exact hne (hji.trans hid2.symm)
              · have := hcond (l.items[i2]) (List.getElem_mem _) hid2
                exact fun hh => this hh.symm
            · rw [if_neg e1]
              by_cases e2 : j = i2
              · subst e2
                rw [if_pos rfl]
                by_cases hid1 : l.items[i1].id = i
                · exfalso
                  have hji : (l.items.get ⟨j, hjlt⟩).id = i := by rw [hjid, hold_id]
                  have hne := hidsG i1 j h1 hjlt hlt12
                  rw [List.get_eq_getElem] at hji
                  exact hne (hid1.trans hji.symm)
                · exact hcond (l.items[i1]) (List.getElem_mem _) hid1
              · rw [if_neg e2]
                exact htitlesG i1 i2 h1 h2 hlt12
          · intro x hx hagent
            rw [hitems] at hx
            rw [ha'] at hagent
            rw [hm']
            rcases List.mem_or_eq_of_mem_set hx with hx' | rfl
            · exact hbound x hx' hagent
            · rw [hnewid] at hagent ⊢
              exact hbound old_item hold_mem hagent
      · exact ROut.noConfusion h
      · exact ROut.noConfusion h

/-- C1 (witness): the invariant holds on the fresh demo replica and is
carried through a successful `add`. -/
theorem C1_witness : LocalInv demo_l0 ∧ LocalInv demo_l1 :=
  ⟨by with_unfolding_all decide,
   (C1_amended demo_l0 (by with_unfolding_all decide)).1 "a" 1 ⟨⟨1, 1⟩, "a", false, 1⟩ demo_l1
     (by with_unfolding_all decide)⟩

/-- C8: in `transform`, a confirmed `Add c` against an incoming `Add i`
with the same title makes the incoming add emit nothing and records the
remap `i.id → c.id`, which is applied to the replica's later incoming
operations (here a `Remove`); and for two replicas forked from the same
fresh root that each add the same title, the slice returned by the first
commit equals the slice returned by the second commit. -/
theorem C8_skip_and_remap (t : String) (ts0 ts1 ts2 u1 u2 u3 : Nat) (c i : ListItem)
    (hid : c.id ≠ i.id) (ht : c.title = i.title) :
    (transform [⟨u1, .Add c⟩] [⟨u2, .Add i⟩, ⟨u3, .Remove i⟩]
      = some [⟨u3, .Remove { i with id := c.id }⟩]) ∧
    (∃ it1 r1 it2 r2 out1 sA out2 sB,
      ((ServerList.new ts0).snapshot).1.add t ts1 = .ok it1 r1 ∧
      (((ServerList.new ts0).snapshot).2.snapshot).1.add t ts2 = .ok it2 r2 ∧
      (((ServerList.new ts0).snapshot).2.snapshot).2.commit r1.changes_to_commit
        = .ok out1 sA ∧
      sA.commit r2.changes_to_commit = .ok out2 sB ∧
      out1 = out2) := by
  constructor
  · simp [transform, transform_go, transform_one, transform_one_go,
      Change.update_item_id, idLookup, hid, ht]
  · refine ⟨⟨⟨1, 1⟩, t, false, 1⟩,
      ⟨1, 1, [⟨⟨1, 1⟩, t, false, 1⟩],
        ⟨1, 0, [⟨ts0, .Root⟩, ⟨ts1, .Add ⟨⟨1, 1⟩, t, false, 1⟩⟩]⟩⟩,
      ⟨⟨2, 1⟩, t, false, 1⟩,
      ⟨2, 1, [⟨⟨2, 1⟩, t, false, 1⟩],
        ⟨1, 0, [⟨ts0, .Root⟩, ⟨ts2, .Add ⟨⟨2, 1⟩, t, false, 1⟩⟩]⟩⟩,
      [⟨ts1, .Add ⟨⟨1, 1⟩, t, false, 1⟩⟩],
      ⟨⟨0, 0, [⟨⟨1, 1⟩, t, false, 1⟩],
        ⟨1, 0, [⟨ts0, .Root⟩, ⟨ts1, .Add ⟨⟨1, 1⟩, t, false, 1⟩⟩]⟩⟩, 2⟩,
      [⟨ts1, .Add ⟨⟨1, 1⟩, t, false, 1⟩⟩],
      ⟨⟨0, 0, [⟨⟨1, 1⟩, t, false, 1⟩],
        ⟨1, 0, [⟨ts0, .Root⟩, ⟨ts1, .Add ⟨⟨1, 1⟩, t, false, 1⟩⟩]⟩⟩, 2⟩,
      ?_, ?_, ?_, ?_, rfl⟩
    · norm_num [ServerList.new, ServerList.snapshot, LList.new, LList.snapshot,
        ChangeLog.new, LList.add, LList.push, ChangeLog.push, ChangeLog.next,
        ChangeLog.is_at_head, LList.apply, Change.new, Change.root]
    · norm_num [ServerList.new, ServerList.snapshot, LList.new, LList.snapshot,
        ChangeLog.new, LList.add, LList.push, ChangeLog.push, ChangeLog.next,
        ChangeLog.is_at_head, LList.apply, Change.new, Change.root]
    · norm_num [ServerList.new, ServerList.snapshot, LList.new, LList.snapshot,
        ChangeLog.new, ServerList.commit, ChangeLog.is_at_head, LList.changes_to_commit,
        ChangeLog.to_commit, squash_changes, squashRevAux, tryMergeRev, squash_one,
        LList.apply_all, LList.apply_all_go, ChangeLog.push_change, ChangeLog.next,
        LList.apply, Change.new, Change.root]
    · norm_num [ServerList.commit, ChangeLog.is_at_head, LList.changes_to_commit,
        ChangeLog.to_commit, squash_changes, squashRevAux, tryMergeRev, squash_one,
        ChangeLog.changes_since, listPosition,
        transform, transform_go, transform_one, transform_one_go, Change.update_item_id,
        idLookup, LList.apply_all, LList.apply_all_go, ChangeLog.push_change,
        ChangeLog.next, LList.apply, Change.new, Change.root]
      exact fun _ hh => Operation.noConfusion hh

/-- C8 (witness): the transform-level skip/remap and the two-replica
scenario at the concrete title "apples" and items with ids (1,1) and
(2,5). -/
theorem C8_witness :
    (transform [⟨0, .Add c8_c⟩] [⟨1, .Add c8_i⟩, ⟨2, .Remove c8_i⟩]
      = some [⟨2, .Remove { c8_i with id := c8_c.id }⟩]) ∧
    (∃ it1 r1 it2 r2 out1 sA out2 sB,
      ((ServerList.new 0).snapshot).1.add "apples" 1 = .ok it1 r1 ∧
      (((ServerList.new 0).snapshot).2.snapshot).1.add "apples" 2 = .ok it2 r2 ∧
      (((ServerList.new 0).snapshot).2.snapshot).2.commit r1.changes_to_commit
        = .ok out1 sA ∧
      sA.commit r2.changes_to_commit = .ok out2 sB ∧
      out1 = out2) :=
  C8_skip_and_remap "apples" 0 1 2 0 1 2 c8_c c8_i (by decide) rfl

end Things
